import Mathlib

/-!
# Verification of the `get-many-mut` library

Shallow embedding of `src/lib.rs` of the `get-many-mut` crate, a stable
polyfill for `slice::get_many_mut`.

Modelling choices:
* A slice `&mut [T]` is a `List α`; a fixed-size array `[T; M]` is a list
  together with a proof that its length is `M`.
* A mutable reference `&mut T` into a slice is modelled as the cell's offset
  from the slice's base pointer (`self.as_mut_ptr()`), a `Nat`.  The pointer
  write `*arr_ptr.add(i) = &mut *ptr.add(idx)` therefore stores the offset
  `idx` at position `i` of the result bundle.  Writing a value through such a
  reference is `writeRef` below, i.e. `List.set` at the cell's offset.
* `&mut self` methods are embedded state-passing style: they return their
  result together with the (possibly updated) slice.
* Const-generic index arrays `[usize; N]` are `List Nat` (with `N` the list's
  length); the const generic `N` of `GetManyMutError<N>` is kept as a type
  parameter.
* A second, panic-aware embedding (`get_many_mut_p` and friends) models every
  slice-indexing operation of the source (`indices[i]`, `&indices[..i]`) as a
  fallible `Option`-valued operation, `none` standing for a Rust panic.  It is
  used to settle the no-panic claim.
-/

namespace GetManyMut

/-- Embedding of `get_many_check_valid` (src/lib.rs:16-30).

```rust
let mut valid = true;
for (i, &idx) in indices.iter().enumerate() {
    valid &= idx < len;
    for &idx2 in &indices[..i] {
        valid &= idx != idx2;
    }
}
valid
```

The outer `for` over `indices.iter().enumerate()` is a fold over
`indices.enum`; the inner `for` over the prefix slice `&indices[..i]` is a
fold over `indices.take i`; `&=` on `bool` is `&&` on `Bool`. -/
def get_many_check_valid (indices : List Nat) (len : Nat) : Bool :=
  indices.enum.foldl
    (fun valid p =>
      (indices.take p.1).foldl (fun v idx2 => v && (p.2 != idx2))
        (valid && decide (p.2 < len)))
    true

/-- Embedding of `pub struct GetManyMutError<const N: usize>;`
(src/lib.rs:170-171): a unit marker type with a phantom const generic `N`. -/
structure GetManyMutError (N : Nat)

/-- Embedding of `impl Display for GetManyMutError` (src/lib.rs:179-186):
the human-readable rendering of the error value. -/
def GetManyMutError.display {N : Nat} (_e : GetManyMutError N) : String :=
  "an index is out of bounds or appeared multiple times in the array"

/-- Embedding of `<[T] as GetManyMutExt>::get_many_unchecked_mut`
(src/lib.rs:112-133).

```rust
let ptr: *mut T = self.as_mut_ptr();
for i in 0..N {
    let idx = indices[i];
    *arr_ptr.add(i) = &mut *ptr.add(idx);
}
```

References are offsets from the base pointer `ptr`, so the bundle's slot `i`
receives the offset `indices[i]`.  The slice argument only supplies the base
pointer (offset `0` in the model). -/
def get_many_unchecked_mut (_s : List α) (indices : List Nat) : List Nat :=
  (List.range indices.length).map fun i => indices.getD i 0

/-- Embedding of `<[T] as GetManyMutExt>::get_many_mut` (src/lib.rs:98-111),
state-passing for `&mut self`: the second component is the slice as the
caller sees it after the call.

```rust
if get_many_check_valid(&indices, self.len()) {
    unsafe { Ok(get_many_unchecked_mut(self, indices)) }
} else {
    Err(GetManyMutError)
}
``` -/
def get_many_mut (s : List α) (indices : List Nat) :
    Except (GetManyMutError indices.length) (List Nat) × List α :=
  if get_many_check_valid indices s.length then
    (Except.ok (get_many_unchecked_mut s indices), s)
  else
    (Except.error GetManyMutError.mk, s)

/-- Embedding of the fixed-size array overload
`<[T; M] as GetManyMutExt>::get_many_mut` (src/lib.rs:138-143), which
forwards to the slice implementation:
`<[T] as GetManyMutExt>::get_many_mut(self, indices)`. -/
def array_get_many_mut {M : Nat} (s : { l : List α // l.length = M })
    (indices : List Nat) :
    Except (GetManyMutError indices.length) (List Nat) × List α :=
  get_many_mut s.val indices

/-- Embedding of the fixed-size array overload
`<[T; M] as GetManyMutExt>::get_many_unchecked_mut` (src/lib.rs:144-149),
which forwards to `<[T] as GetManyMutExt>::get_many_unchecked_mut`. -/
def array_get_many_unchecked_mut {M : Nat}
    (s : { l : List α // l.length = M }) (indices : List Nat) : List Nat :=
  get_many_unchecked_mut s.val indices

/-- Writing a value through a reference (an offset from the slice base):
`*r = v`. -/
def writeRef (s : List α) (r : Nat) (v : α) : List α :=
  s.set r v

/-! ## Panic-aware embedding

Rust slice indexing `indices[i]` and prefix slicing `&indices[..i]` panic when
out of range.  The `_p` variants model those operations as `Option`-valued,
`none` standing for a panic, and are otherwise verbatim copies of the plain
embedding. -/

/-- `indices[i]`: panics (`none`) when `i` is out of bounds. -/
def index_read (l : List Nat) (i : Nat) : Option Nat :=
  l[i]?

/-- `&l[..i]`: panics (`none`) when `i > l.len()`. -/
def slice_to (l : List Nat) (i : Nat) : Option (List Nat) :=
  if i ≤ l.length then some (l.take i) else none

/-- Panic-aware embedding of `get_many_check_valid`. -/
def get_many_check_valid_p (indices : List Nat) (len : Nat) : Option Bool :=
  indices.enum.foldlM
    (fun valid p => do
      let pre ← slice_to indices p.1
      pure (pre.foldl (fun v idx2 => v && (p.2 != idx2))
        (valid && decide (p.2 < len))))
    true

/-- Panic-aware embedding of the slice `get_many_unchecked_mut`. -/
def get_many_unchecked_mut_p (_s : List α) (indices : List Nat) :
    Option (List Nat) :=
  (List.range indices.length).mapM fun i => index_read indices i

/-- Panic-aware embedding of the slice `get_many_mut`. -/
def get_many_mut_p (s : List α) (indices : List Nat) :
    Option (Except (GetManyMutError indices.length) (List Nat) × List α) := do
  let valid ← get_many_check_valid_p indices s.length
  if valid then
    let refs ← get_many_unchecked_mut_p s indices
    pure (Except.ok refs, s)
  else
    pure (Except.error GetManyMutError.mk, s)

/-! ## Helper lemmas -/

/-- A left fold whose step factors as `step v x = v && G x` computes the
conjunction of the seed with `all G`. -/
lemma foldl_factor_and {β : Type} (step : Bool → β → Bool) (G : β → Bool)
    (hstep : ∀ v x, step v x = (v && G x)) (l : List β) (b : Bool) :
    l.foldl step b = (b && l.all G) := by
  induction l generalizing b with
  | nil => simp
  | cons x xs ih =>
    rw [List.foldl_cons, ih, hstep, List.all_cons, Bool.and_assoc]

/-- The checker computes `all` of the per-rank condition: rank `p.1` holds
when `p.2 < len` and `p.2` differs from every index of strictly earlier
rank. -/
lemma get_many_check_valid_eq_all (indices : List Nat) (len : Nat) :
    get_many_check_valid indices len =
      indices.enum.all fun p =>
        decide (p.2 < len) && (indices.take p.1).all fun idx2 => p.2 != idx2 := by
  unfold get_many_check_valid
  have hstep : ∀ (v : Bool) (p : Nat × Nat),
      (indices.take p.1).foldl (fun v idx2 => v && (p.2 != idx2))
          (v && decide (p.2 < len)) =
        (v && (decide (p.2 < len) &&
          (indices.take p.1).all fun idx2 => p.2 != idx2)) := by
    intro v p
    rw [foldl_factor_and _ _ (fun _ _ => rfl), Bool.and_assoc]
  rw [foldl_factor_and _ _ hstep, Bool.true_and]

/-- Membership in a prefix, phrased through ranks. -/
lemma mem_take_iff_getElem {l : List Nat} {j : Nat} (hj : j ≤ l.length)
    {x : Nat} :
    x ∈ l.take j ↔ ∃ (i : Nat) (h : i < j), l.get ⟨i, lt_of_lt_of_le h hj⟩ = x := by
  rw [List.mem_iff_getElem]
  constructor
  · rintro ⟨i, hi, hx⟩
    rw [List.length_take] at hi
    refine ⟨i, lt_of_lt_of_le (lt_min_iff.mp hi).1 le_rfl, ?_⟩
    rw [← hx, List.getElem_take]
    rfl
  · rintro ⟨i, hij, hx⟩
    have hi : i < (l.take j).length := by
      rw [List.length_take]; exact lt_min hij (lt_of_lt_of_le hij hj)
    exact ⟨i, hi, by rw [List.getElem_take]; exact hx⟩

/-- Characterisation of `get_many_check_valid`: it is `true` exactly when
every index is in bounds and the indices are pairwise distinct. -/
lemma check_valid_iff (indices : List Nat) (len : Nat) :
    get_many_check_valid indices len = true ↔
      (∀ i ∈ indices, i < len) ∧ indices.Pairwise (· ≠ ·) := by
  rw [get_many_check_valid_eq_all, List.all_eq_true]
  constructor
  · intro h
    constructor
    · intro x hx
      rw [List.mem_iff_getElem] at hx
      obtain ⟨i, hi, rfl⟩ := hx
      have := h (i, indices[i]) (by
        rw [List.mem_iff_getElem]
        exact ⟨i, by simpa [List.enum_length] using hi, by
          rw [List.getElem_enum]⟩)
      simp only [Bool.and_eq_true, decide_eq_true_eq] at this
      exact this.1
    · rw [List.pairwise_iff_getElem]
      intro i j hi hj hij
      have := h (j, indices[j]) (by
        rw [List.mem_iff_getElem]
        exact ⟨j, by simpa [List.enum_length] using hj, by
          rw [List.getElem_enum]⟩)
      simp only [Bool.and_eq_true, decide_eq_true_eq, List.all_eq_true] at this
      have hmem : indices[i] ∈ indices.take j :=
        (mem_take_iff_getElem (le_of_lt hj)).mpr ⟨i, hij, rfl⟩
      have := this.2 _ hmem
      simp only [bne_iff_ne, ne_eq] at this
      exact fun hEq => this hEq.symm
  · rintro ⟨hb, hd⟩ p hp
    rw [List.mem_iff_getElem] at hp
    obtain ⟨k, hk, hpk⟩ := hp
    have hk' : k < indices.length := by simpa [List.enum_length] using hk
    rw [List.getElem_enum] at hpk
    subst hpk
    simp only [Bool.and_eq_true, decide_eq_true_eq, List.all_eq_true]
    refine ⟨hb _ (List.getElem_mem hk'), ?_⟩
    intro x hx
    rw [mem_take_iff_getElem (le_of_lt hk')] at hx
    obtain ⟨i, hik, rfl⟩ := hx
    rw [List.pairwise_iff_getElem] at hd
    simpa [bne_iff_ne] using (hd i k (lt_trans hik hk') hk' hik).symm

/-- The unchecked constructor returns exactly the requested offsets: slot `i`
of the bundle is the offset `indices[i]`, so the bundle, as a list of offsets,
is `indices` itself. -/
lemma get_many_unchecked_mut_eq {α : Type} (s : List α) (indices : List Nat) :
    get_many_unchecked_mut s indices = indices := by
  unfold get_many_unchecked_mut
  apply List.ext_getElem
  · simp
  · intro i h1 h2
    simp [List.getD, List.getElem?_eq_getElem h2]

/-- A list fails `Nodup` exactly when some value occurs at least twice. -/
lemma not_nodup_iff_count (l : List Nat) :
    ¬ l.Nodup ↔ ∃ x, 2 ≤ l.count x := by
  rw [List.nodup_iff_count_le_one]
  push_neg
  simp [Nat.lt_iff_add_one_le]

/-- The checker returns `false` exactly when some index is out of bounds or
some index occurs at least twice. -/
lemma check_valid_false_iff (indices : List Nat) (len : Nat) :
    get_many_check_valid indices len = false ↔
      (∃ i ∈ indices, len ≤ i) ∨ ∃ x, 2 ≤ indices.count x := by
  rw [← Bool.not_eq_true, check_valid_iff]
  rw [not_and_or]
  constructor
  · rintro (h | h)
    · left; push_neg at h; exact h
    · right; exact (not_nodup_iff_count indices).mp h
  · rintro (h | h)
    · left; push_neg; exact h
    · right; exact (not_nodup_iff_count indices).mpr h

/-- On valid input, `get_many_mut` takes the `Ok` branch and returns the
unchecked bundle together with the untouched slice. -/
lemma get_many_mut_of_valid {α : Type} (s : List α) (indices : List Nat)
    (hb : ∀ i ∈ indices, i < s.length) (hd : indices.Pairwise (· ≠ ·)) :
    get_many_mut s indices = (Except.ok indices, s) := by
  unfold get_many_mut
  rw [if_pos ((check_valid_iff indices s.length).mpr ⟨hb, hd⟩),
    get_many_unchecked_mut_eq]

/-- `mapM` over `Option` never panicking: when every element maps to `some`,
the whole map is `some` of the pure map. -/
lemma mapM_option_eq_map {β γ : Type} (f : β → Option γ) (g : β → γ)
    (l : List β) (h : ∀ b ∈ l, f b = some (g b)) :
    l.mapM f = some (l.map g) := by
  induction l with
  | nil => rfl
  | cons x xs ih =>
    rw [List.mapM_cons, h x (List.mem_cons_self x xs)]
    simp only [Option.some_bind, Option.bind_some, bind, Option.bind]
    rw [ih (fun b hb => h b (List.mem_cons_of_mem x hb))]
    rfl

/-- `foldlM` over `Option` never panicking: when every step is `some`, the
whole fold is `some` of the pure fold. -/
lemma foldlM_option_eq_foldl {β γ : Type} (f : γ → β → Option γ)
    (g : γ → β → γ) (l : List β) (h : ∀ b ∈ l, ∀ c, f c b = some (g c b))
    (c : γ) :
    l.foldlM f c = some (l.foldl g c) := by
  induction l generalizing c with
  | nil => rfl
  | cons x xs ih =>
    rw [List.foldlM_cons, h x (List.mem_cons_self x xs)]
    simp only [bind, Option.bind]
    rw [ih (fun b hb => h b (List.mem_cons_of_mem x hb))]
    rfl

/-- Every rank produced by `enumerate` is below the list's length. -/
lemma fst_lt_of_mem_enum {l : List Nat} {p : Nat × Nat} (h : p ∈ l.enum) :
    p.1 < l.length := by
  rw [List.mem_iff_getElem] at h
  obtain ⟨i, hi, hp⟩ := h
  rw [List.getElem_enum] at hp
  subst hp
  simpa [List.enum_length] using hi

/-- The panic-aware checker never panics and agrees with the plain checker. -/
lemma check_valid_p_eq (indices : List Nat) (len : Nat) :
    get_many_check_valid_p indices len =
      some (get_many_check_valid indices len) := by
  unfold get_many_check_valid_p get_many_check_valid
  apply foldlM_option_eq_foldl
  intro p hp c
  have h1 : p.1 ≤ indices.length := le_of_lt (fst_lt_of_mem_enum hp)
  simp [slice_to, h1]

/-- The panic-aware unchecked constructor never panics and agrees with the
plain one. -/
lemma unchecked_p_eq {α : Type} (s : List α) (indices : List Nat) :
    get_many_unchecked_mut_p s indices =
      some (get_many_unchecked_mut s indices) := by
  unfold get_many_unchecked_mut_p get_many_unchecked_mut
  apply mapM_option_eq_map
  intro i hi
  have hlt : i < indices.length := List.mem_range.mp hi
  simp [index_read, List.getElem?_eq_getElem hlt, List.getD_eq_getElem indices 0 hlt]

/-! ## Claim theorems -/

/-- C3: the pure validity checker `get_many_check_valid` returns `true` if
and only if every position in the array is strictly less than `len` and all
positions are pairwise distinct. -/
theorem check_valid_correct (indices : List Nat) (len : Nat) :
    get_many_check_valid indices len = true ↔
      (∀ i ∈ indices, i < len) ∧ indices.Pairwise (· ≠ ·) :=
  check_valid_iff indices len

/-- C7: for an empty index array, `get_many_mut` always succeeds with an
empty reference bundle and leaves the slice unchanged, for every slice
(including the empty one); and the validity checker returns `true` for zero
positions at any length. -/
theorem zero_count_identity {α : Type} (s : List α) (len : Nat) :
    get_many_mut s ([] : List Nat) = (Except.ok [], s) ∧
      get_many_check_valid [] len = true :=
  ⟨get_many_mut_of_valid s [] (by simp) List.Pairwise.nil, rfl⟩

/-- C6: the fixed-size array overloads of `get_many_mut` and
`get_many_unchecked_mut` behave exactly as the slice operations applied to
the array viewed as a linear sequence of its length, with no additional
logic. -/
theorem array_overload_forwards {α : Type} {M : Nat}
    (s : { l : List α // l.length = M }) (indices : List Nat) :
    array_get_many_mut s indices = get_many_mut s.val indices ∧
      array_get_many_unchecked_mut s indices =
        get_many_unchecked_mut s.val indices :=
  ⟨rfl, rfl⟩

/-- C9: for every `N`, the display rendering of the error value is exactly
the string
"an index is out of bounds or appeared multiple times in the array". -/
theorem error_display_message {N : Nat} (e : GetManyMutError N) :
    e.display =
      "an index is out of bounds or appeared multiple times in the array" :=
  rfl

/-- C5: on every valid input (all indices in bounds, pairwise distinct), the
checked operation returns `Ok` of exactly the bundle the unchecked operation
produces: identical cells in identical order. -/
theorem checked_unchecked_equivalence {α : Type} (s : List α)
    (indices : List Nat) (hb : ∀ i ∈ indices, i < s.length)
    (hd : indices.Pairwise (· ≠ ·)) :
    (get_many_mut s indices).1 =
      Except.ok (get_many_unchecked_mut s indices) := by
  rw [get_many_mut_of_valid s indices hb hd, get_many_unchecked_mut_eq]

/-- Witness for C5 at slice `[1, 2, 3]` and indices `[0, 2]`. -/
theorem checked_unchecked_equivalence_witness :
    (∀ i ∈ ([0, 2] : List Nat), i < ([1, 2, 3] : List Nat).length) ∧
      ([0, 2] : List Nat).Pairwise (· ≠ ·) ∧
      (get_many_mut ([1, 2, 3] : List Nat) [0, 2]).1 =
        Except.ok (get_many_unchecked_mut ([1, 2, 3] : List Nat) [0, 2]) :=
  ⟨by decide, by decide,
    checked_unchecked_equivalence [1, 2, 3] [0, 2] (by decide) (by decide)⟩

/-- C4: on every valid input, slot `k` of the bundle returned by the
unchecked operation, and of the `Ok` bundle returned by the checked
operation, is the reference to the cell at requested position `indices[k]`
(references being cell offsets in this model), i.e. result order matches
input order exactly. -/
theorem order_preservation {α : Type} (s : List α) (indices : List Nat)
    (hb : ∀ i ∈ indices, i < s.length) (hd : indices.Pairwise (· ≠ ·)) :
    ((get_many_unchecked_mut s indices).length = indices.length ∧
      ∀ (k : Nat) (hk : k < indices.length),
        (get_many_unchecked_mut s indices).getD k 0 = indices.get ⟨k, hk⟩) ∧
    ∃ refs, (get_many_mut s indices).1 = Except.ok refs ∧
      refs.length = indices.length ∧
      ∀ (k : Nat) (hk : k < indices.length),
        refs.getD k 0 = indices.get ⟨k, hk⟩ := by
  rw [get_many_unchecked_mut_eq]
  refine ⟨⟨rfl, fun k hk => List.getD_eq_getElem indices 0 hk⟩,
    indices, ?_, rfl, fun k hk => List.getD_eq_getElem indices 0 hk⟩
  rw [get_many_mut_of_valid s indices hb hd]

/-- Witness for C4 at slice `[1, 2, 3]` and the numerically out-of-order
indices `[2, 0]`. -/
theorem order_preservation_witness :
    (∀ i ∈ ([2, 0] : List Nat), i < ([1, 2, 3] : List Nat).length) ∧
      ([2, 0] : List Nat).Pairwise (· ≠ ·) ∧
      (((get_many_unchecked_mut ([1, 2, 3] : List Nat) [2, 0]).length =
          ([2, 0] : List Nat).length ∧
        ∀ (k : Nat) (hk : k < ([2, 0] : List Nat).length),
          (get_many_unchecked_mut ([1, 2, 3] : List Nat) [2, 0]).getD k 0 =
            ([2, 0] : List Nat).get ⟨k, hk⟩) ∧
      ∃ refs,
        (get_many_mut ([1, 2, 3] : List Nat) [2, 0]).1 = Except.ok refs ∧
        refs.length = ([2, 0] : List Nat).length ∧
        ∀ (k : Nat) (hk : k < ([2, 0] : List Nat).length),
          refs.getD k 0 = ([2, 0] : List Nat).get ⟨k, hk⟩) :=
  ⟨by decide, by decide,
    order_preservation [1, 2, 3] [2, 0] (by decide) (by decide)⟩

/-- C1: the checked operation returns the error value exactly when some index
is `≥` the slice's length or some index value appears more than once; the
slice (contents and hence length) is unchanged by the call; and otherwise it
returns `Ok` with as many references as requested. -/
theorem get_many_mut_error_characterisation {α : Type} (s : List α)
    (indices : List Nat) :
    ((get_many_mut s indices).1 = Except.error GetManyMutError.mk ↔
      (∃ i ∈ indices, s.length ≤ i) ∨ ∃ x, 2 ≤ indices.count x) ∧
    (get_many_mut s indices).2 = s ∧
    (¬ ((∃ i ∈ indices, s.length ≤ i) ∨ ∃ x, 2 ≤ indices.count x) →
      ∃ refs, (get_many_mut s indices).1 = Except.ok refs ∧
        refs.length = indices.length) := by
  cases hv : get_many_check_valid indices s.length with
  | false =>
    have hcond := (check_valid_false_iff indices s.length).mp hv
    refine ⟨?_, ?_, fun hn => absurd hcond hn⟩
    · simp [get_many_mut, hv, hcond]
    · simp [get_many_mut, hv]
  | true =>
    refine ⟨?_, ?_, fun _ => ?_⟩
    · simp only [get_many_mut, hv, if_true]
      constructor
      · intro h
        exact absurd h (by simp)
      · intro hcond
        have := (check_valid_false_iff indices s.length).mpr hcond
        rw [hv] at this
        exact absurd this (by simp)
    · simp [get_many_mut, hv]
    · refine ⟨get_many_unchecked_mut s indices, by simp [get_many_mut, hv], ?_⟩
      rw [get_many_unchecked_mut_eq]

/-- C2: on every valid input the checked operation succeeds with a bundle of
pairwise-distinct references (cell offsets), and writing a value through the
`k`-th reference makes that value readable at requested position
`indices[k]` while every other position of the slice is unaffected. -/
theorem disjointness_guarantee {α : Type} (s : List α) (indices : List Nat)
    (hb : ∀ i ∈ indices, i < s.length) (hd : indices.Pairwise (· ≠ ·)) :
    ∃ refs, (get_many_mut s indices).1 = Except.ok refs ∧
      refs.length = indices.length ∧
      refs.Pairwise (· ≠ ·) ∧
      ∀ (k : Nat) (hk : k < indices.length) (v : α),
        (writeRef s (refs.getD k 0) v)[indices.get ⟨k, hk⟩]? = some v ∧
        ∀ j : Nat, j ≠ indices.get ⟨k, hk⟩ →
          (writeRef s (refs.getD k 0) v)[j]? = s[j]? := by
  refine ⟨indices, ?_, rfl, hd, ?_⟩
  · rw [get_many_mut_of_valid s indices hb hd]
  · intro k hk v
    have hkD : indices.getD k 0 = indices.get ⟨k, hk⟩ :=
      List.getD_eq_getElem indices 0 hk
    have hbk : indices[k] < s.length :=
      hb _ (List.getElem_mem hk)
    constructor
    · rw [writeRef, hkD]
      simp [List.getElem?_set_self', List.getElem?_eq_getElem hbk]
    · intro j hj
      rw [writeRef, hkD]
      exact List.getElem?_set_ne (Ne.symm hj)

/-- Witness for C2 at slice `[1, 2, 3]` and indices `[0, 2]`. -/
theorem disjointness_guarantee_witness :
    (∀ i ∈ ([0, 2] : List Nat), i < ([1, 2, 3] : List Nat).length) ∧
      ([0, 2] : List Nat).Pairwise (· ≠ ·) ∧
      ∃ refs,
        (get_many_mut ([1, 2, 3] : List Nat) [0, 2]).1 = Except.ok refs ∧
        refs.length = ([0, 2] : List Nat).length ∧
        refs.Pairwise (· ≠ ·) ∧
        ∀ (k : Nat) (hk : k < ([0, 2] : List Nat).length) (v : Nat),
          (writeRef ([1, 2, 3] : List Nat) (refs.getD k 0)
              v)[([0, 2] : List Nat).get ⟨k, hk⟩]? = some v ∧
          ∀ j : Nat, j ≠ ([0, 2] : List Nat).get ⟨k, hk⟩ →
            (writeRef ([1, 2, 3] : List Nat) (refs.getD k 0) v)[j]? =
              ([1, 2, 3] : List Nat)[j]? :=
  ⟨by decide, by decide,
    disjointness_guarantee [1, 2, 3] [0, 2] (by decide) (by decide)⟩

/-- C8: the checked entry point never panics: in the panic-aware embedding,
where `none` stands for a Rust panic, `get_many_mut_p` returns `some` on
every input, and its value is the plain embedding's result (every invalid
input becomes a normal error return). -/
theorem get_many_mut_never_panics {α : Type} (s : List α)
    (indices : List Nat) :
    get_many_mut_p s indices = some (get_many_mut s indices) := by
  unfold get_many_mut_p get_many_mut
  rw [check_valid_p_eq]
  cases hv : get_many_check_valid indices s.length with
  | false => simp [hv]
  | true => simp [hv, unchecked_p_eq]

/-- C10: the validity checker is invariant under permutation of the index
array: rearranging the requested positions never changes the verdict, even
though the implementation only compares each position against strictly
earlier ranks. -/
theorem check_valid_perm_invariant (len : Nat) (l1 l2 : List Nat)
    (h : l1.Perm l2) :
    get_many_check_valid l1 len = get_many_check_valid l2 len := by
  rw [Bool.eq_iff_iff, check_valid_iff, check_valid_iff]
  have hnd : l1.Nodup ↔ l2.Nodup := h.nodup_iff
  constructor
  · rintro ⟨hb, hd⟩
    exact ⟨fun i hi => hb i (h.mem_iff.mpr hi), hnd.mp hd⟩
  · rintro ⟨hb, hd⟩
    exact ⟨fun i hi => hb i (h.mem_iff.mp hi), hnd.mpr hd⟩

/-- Witness for C10 at the rearranged index arrays `[2, 0]` and `[0, 2]`
with length `3`. -/
theorem check_valid_perm_invariant_witness :
    ([2, 0] : List Nat).Perm [0, 2] ∧
      get_many_check_valid [2, 0] 3 = get_many_check_valid [0, 2] 3 :=
  ⟨by decide, check_valid_perm_invariant 3 [2, 0] [0, 2] (by decide)⟩

end GetManyMut
